import Mathlib

/-!
Verification of the runnable execution-handle core of this repository
(crates/runnable/src/handle.rs): the output-draining routine
handle_output, the dual-stream capture PendingOutput, and the
cancellable, clonable, awaitable Handle.

Modelling conventions (shallow embedding):
* A byte stream is a List Nat (one Nat per byte, 10 is the newline byte)
  together with a StreamEnd saying how reading terminates after those
  bytes: end-of-file (a zero-length read) or a read error.
* BufReader::read_until(b'\n') yields the stream's maximal
  newline-terminated segments in order, plus a possibly unterminated
  final segment; splitChunks computes exactly that sequence of
  read_until results, one list element per successful read.
* String::from_utf8_lossy is an external library function; it is
  treated as an uninterpreted parameter decode : List Nat -> String, so
  every theorem holds for an arbitrary decoding. decodeAscii is a
  concrete decoder used to instantiate theorems on concrete inputs.
* The shared accumulation buffer (Arc<Mutex<String>>), the unbounded
  line channel and the scheduling of the two drain tasks are modelled
  by an explicit state (OutState) and an event trace: each processed
  line contributes one atomic buffer append followed by one atomic
  channel send, and the two drains' event sequences are interleaved
  arbitrarily.
* The shared cancellable completion future
  Shared<Task<Result<Result<ExitStatus, Arc<Error>>, Aborted>>> is a
  state machine World: futVal is the value the wrapped process future
  resolves to, futDone records whether it has resolved, aborted records
  whether the AbortHandle was fired, and memo is the memoized output of
  the Shared future (set at the first poll that observes readiness or
  abortion, per futures::stream::Abortable, which checks abortion
  before polling the inner future).
-/

/-- Termination of a byte stream: either a clean end of input (read_until
returns 0 bytes) or a read error on the next read after the listed bytes. -/
inductive StreamEnd where
  | eof
  | err
deriving DecidableEq, Repr

/-- Sequence of results of repeated BufReader::read_until(b'\n') calls on a
byte stream: maximal newline-terminated segments in order, with the newline
included, plus the unterminated final segment when the stream does not end
with a newline. -/
def splitChunks : List Nat → List (List Nat)
  | [] => []
  | b :: rest =>
    if b == 10 then [10] :: splitChunks rest
    else
      match splitChunks rest with
      | [] => [[b]]
      | c :: cs => (b :: c) :: cs

/-- Loop body iteration of handle_output over the successive read_until
results. For each chunk: decode it, append the decoded line to the shared
accumulation buffer (first component), attempt to forward it on the line
channel (second component: the lines actually delivered; when alive is
false the receiver was dropped, unbounded_send fails and the Err is
discarded by .ok()), and continue. A chunk that does not end in a newline
is the final segment before the stream terminator: under eof it is read
successfully and processed, after which the next read returns 0 bytes and
the loop returns Ok; under err the read that would produce it fails and
handle_output returns the error (third component false). -/
def processChunks (decode : List Nat → String) (alive : Bool) (e : StreamEnd) :
    List (List Nat) → List String × List String × Bool
  | [] =>
    match e with
    | .eof => ([], [], true)
    | .err => ([], [], false)
  | c :: cs =>
    if c.getLast? = some 10 then
      let line := decode c
      let r := processChunks decode alive e cs
      (line :: r.1, if alive then line :: r.2.1 else r.2.1, r.2.2)
    else
      match e with
      | .eof =>
        let line := decode c
        let r := processChunks decode alive e cs
        (line :: r.1, if alive then line :: r.2.1 else r.2.1, r.2.2)
      | .err => ([], [], false)

/-- Model of the async fn handle_output of handle.rs: reads the stream via
read_until(b'\n') until a zero-length read (normal Ok return) or a read
error (early Err return), decoding each segment, appending it to the shared
capture buffer and forwarding it on the line channel. Returns the ordered
list of buffer appends performed, the ordered list of lines delivered on
the channel, and whether the routine returned Ok. -/
def handle_output (decode : List Nat → String) (alive : Bool) (e : StreamEnd)
    (bytes : List Nat) : List String × List String × Bool :=
  processChunks decode alive e (splitChunks bytes)

/-- Concrete decoder used to instantiate theorems on concrete byte lists;
stands in for String::from_utf8_lossy on plain ASCII input. -/
def decodeAscii (bytes : List Nat) : String :=
  String.mk (bytes.map Char.ofNat)

/-- Atomic observable actions of one drain task, in program order: for each
processed line, one append to the shared accumulation buffer (the lock is
held only for the push_str) followed by one send on the line channel. The
two drains' event sequences get interleaved arbitrarily by the executor. -/
inductive DrainEv where
  | append (line : String)
  | send (line : String)
deriving DecidableEq, Repr

/-- Buffer appends occurring in a trace, in order. -/
def appendsOf (t : List DrainEv) : List String :=
  t.filterMap fun e =>
    match e with
    | .append l => some l
    | .send _ => none

/-- Channel sends occurring in a trace, in order. -/
def sendsOf (t : List DrainEv) : List String :=
  t.filterMap fun e =>
    match e with
    | .append _ => none
    | .send l => some l

/-- Event trace of one drain task running handle_output to completion on
its stream (with the channel receiver alive): each captured line yields an
append event then a send event. -/
def drainEvents (decode : List Nat → String) (e : StreamEnd) (bytes : List Nat) :
    List DrainEv :=
  (handle_output decode true e bytes).1.flatMap fun l => [DrainEv.append l, DrainEv.send l]

/-- Interleaving of two sequences: l is some merge of l1 and l2 that keeps
the relative order inside each of l1 and l2. -/
inductive Interleaving {α : Type} : List α → List α → List α → Prop
  | nil : Interleaving [] [] []
  | consLeft (a : α) {l₁ l₂ l : List α} :
      Interleaving l₁ l₂ l → Interleaving (a :: l₁) l₂ (a :: l)
  | consRight (a : α) {l₁ l₂ l : List α} :
      Interleaving l₁ l₂ l → Interleaving l₁ (a :: l₂) (a :: l)

/-- Runtime state of one PendingOutput: the events each of the two drain
tasks (stdout, stderr) has not yet executed, the current contents of the
shared accumulation buffer, and the lines sent on the line channel so far.
A drain task is finished exactly when its pending event list is empty. -/
structure OutState where
  pend1 : List DrainEv
  pend2 : List DrainEv
  buf : String
  chan : List String
deriving DecidableEq, Repr

/-- Effect of one atomic drain event on the shared buffer and channel. -/
def applyEv (e : DrainEv) (w : OutState) : OutState :=
  match e with
  | .append l => { w with buf := w.buf ++ l }
  | .send l => { w with chan := w.chan ++ [l] }

/-- Scheduler choice: run the next atomic event of the stdout drain or of
the stderr drain. -/
inductive Sched where
  | s1
  | s2
deriving DecidableEq, Repr

/-- One scheduling step of the PendingOutput pair of drain tasks; a choice
naming a finished drain is a no-op. -/
def outStep (s : Sched) (w : OutState) : OutState :=
  match s with
  | .s1 =>
    match w.pend1 with
    | [] => w
    | e :: rest => applyEv e { w with pend1 := rest }
  | .s2 =>
    match w.pend2 with
    | [] => w
    | e :: rest => applyEv e { w with pend2 := rest }

/-- Run a whole schedule of interleaved drain steps. -/
def outRun (l : List Sched) (w : OutState) : OutState :=
  l.foldl (fun w s => outStep s w) w

/-- State built by PendingOutput::new: one empty shared buffer, one empty
unbounded line channel, and two freshly spawned drain tasks, one on the
stdout stream and one on the stderr stream. -/
def outInit (decode : List Nat → String) (e1 : StreamEnd) (b1 : List Nat)
    (e2 : StreamEnd) (b2 : List Nat) : OutState :=
  ⟨drainEvents decode e1 b1, drainEvents decode e2 b2, "", []⟩

/-- Model of PendingOutput::full_output: join_all on the two shared drain
tasks, then a snapshot (clone) of the accumulation buffer. It resolves only
once both drains are finished; awaiting Shared tasks does not consume them
and reading the buffer does not modify it, so the state is returned
unchanged alongside the snapshot. none means the join is still pending. -/
def full_output (w : OutState) : Option (String × OutState) :=
  if w.pend1 = [] ∧ w.pend2 = [] then some (w.buf, w) else none

/-- Buffer and channel produced by executing a complete event trace from an
empty buffer and channel. -/
def execOut (t : List DrainEv) : OutState :=
  t.foldl (fun w e => applyEv e w) ⟨[], [], "", []⟩

/-- Process exit status (async_process::ExitStatus), abstracted to its
code. -/
structure ExitStatus where
  code : Int
deriving DecidableEq, Repr

/-- Model of Arc<anyhow::Error>: an error message. -/
abbrev ProcError := String

deriving instance DecidableEq for Except
deriving instance Repr for Except

/-- Re-export in handle.rs of futures::stream::Aborted: the terminal
outcome of an Abortable future whose AbortHandle was fired. -/
inductive RunnableTerminated where
  | aborted
deriving DecidableEq, Repr

/-- Descriptor of one PendingOutput capture: the two streams its drain
tasks read (stdout first, stderr second). The runtime pieces of the Rust
struct (the two Shared drain tasks, the Arc<Mutex<String>> buffer and the
channel receiver) are modelled by OutState and the drain functions above;
clones of PendingOutput share all of them, so a clone is the descriptor
itself. -/
structure PendingOutput where
  stdoutBytes : List Nat
  stdoutEnd : StreamEnd
  stderrBytes : List Nat
  stderrEnd : StreamEnd
deriving DecidableEq, Repr

/-- Terminal success payload of awaiting a Handle. Declared in the runnable
crate outside this excerpt; the types of its fields are forced by the
construction sites in handle.rs (Handle::poll and Handle::result build it
with status := runnable_result where runnable_result is the
Result<ExitStatus, Arc<anyhow::Error>> produced by the wrapped process
future, and output := the cloned optional PendingOutput). -/
structure ExecutionResult where
  status : Except ProcError ExitStatus
  output : Option PendingOutput
deriving DecidableEq, Repr

/-- State of the shared cancellable completion future of one Handle and all
of its clones: futVal is the Result<ExitStatus, Arc<Error>> the wrapped
process future resolves to, futDone whether it has resolved, aborted
whether the AbortHandle was fired, and memo the memoized output of the
Shared<Abortable<...>> future once some poll observed it ready. -/
structure World where
  futVal : Except ProcError ExitStatus
  futDone : Bool
  aborted : Bool
  memo : Option (Except RunnableTerminated (Except ProcError ExitStatus))
deriving DecidableEq, Repr

/-- Freshly spawned completion future: nothing resolved, not aborted,
nothing memoized. -/
def World.init (futVal : Except ProcError ExitStatus) : World :=
  ⟨futVal, false, false, none⟩

/-- One poll of the shared completion future, following Shared and
Abortable: a memoized output is returned as is; otherwise Abortable checks
abortion first and yields Err(Aborted), else the inner future's result if
it is ready; otherwise the poll is pending and changes nothing. -/
def stepPoll (w : World) : World :=
  match w.memo with
  | some _ => w
  | none =>
    if w.aborted then { w with memo := some (Except.error RunnableTerminated.aborted) }
    else if w.futDone then { w with memo := some (Except.ok w.futVal) }
    else w

/-- Effect of firing the AbortHandle returned by termination_handle. -/
def abortRunnable (w : World) : World :=
  { w with aborted := true }

/-- Environment steps on the shared completion future: any holder of the
cancel capability may fire it at any time; the wrapped process future may
resolve (naturally complete) once; any clone of the handle, or the executor
driving the spawned task, may poll at any time. -/
inductive Step : World → World → Prop
  | abort (w : World) : Step w (abortRunnable w)
  | futResolve (w : World) : w.futDone = false → Step w { w with futDone := true }
  | poll (w : World) : Step w (stepPoll w)

/-- Reflexive-transitive closure of the completion-future steps. -/
abbrev Reachable : World → World → Prop :=
  Relation.ReflTransGen Step

/-- Model of the Handle struct: clones share fut (the World) and the
cancel token, and each carries the shared optional PendingOutput; since
clones agree on every field, a clone is the value itself. -/
structure Handle where
  output : Option PendingOutput
deriving DecidableEq, Repr

/-- Model of Handle::new: wrap the caller-supplied process future in a
fresh Abortable pair, spawn it shared, and return Ok of the handle. The
declared return type is fallible (anyhow::Result) but the body is a plain
Ok of the record. -/
def Handle.new (futVal : Except ProcError ExitStatus) (output : Option PendingOutput) :
    Except ProcError (Handle × World) :=
  Except.ok (⟨output⟩, World.init futVal)

/-- Model of Handle::termination_handle: a clone of the shared AbortHandle;
invoking the capability performs abortRunnable on the shared world. -/
def Handle.termination_handle (_h : Handle) : World → World :=
  abortRunnable

/-- Model of Handle::result: fut.peek().cloned().map(...) — a non-blocking
peek at the memoized output of the shared future, mapping a ready process
result into an ExecutionResult carrying the shared output handle. -/
def Handle.result (h : Handle) (w : World) :
    Option (Except RunnableTerminated ExecutionResult) :=
  w.memo.map fun res => res.map fun st => ExecutionResult.mk st h.output

/-- Model of the Future impl for Handle: poll the shared future; on Ready,
map the process result into an ExecutionResult (res.map keeps Err(Aborted)
as a failed resolution); on Pending return none. The polled world is
returned alongside. -/
def Handle.poll (h : Handle) (w : World) :
    Option (Except RunnableTerminated ExecutionResult) × World :=
  ((stepPoll w).memo.map fun res => res.map fun st => ExecutionResult.mk st h.output,
    stepPoll w)

/-- Combined step of the whole system: either the completion-future state
machine moves (a poll, an abort, or the process future resolving), or one
of the two drain tasks of the PendingOutput executes one atomic event. The
two components share no state: the drains touch only the buffer and the
channel, the completion wrapper only its own future state. -/
inductive SysStep : World × OutState → World × OutState → Prop
  | handleStep {w w' : World} (o : OutState) : Step w w' → SysStep (w, o) (w', o)
  | drainStep (w : World) {o : OutState} (s : Sched) : SysStep (w, o) (w, outStep s o)

/-- Reflexive-transitive closure of combined system steps. -/
abbrev SysReach : World × OutState → World × OutState → Prop :=
  Relation.ReflTransGen SysStep

/-- Simulation invariant tying an OutState to the two drain event
sequences it was created from: some prefix of each drain's events has been
executed, merged in some order t, and the buffer and channel hold exactly
what executing t produces. -/
def Matches (ev1 ev2 : List DrainEv) (w : OutState) : Prop :=
  ∃ d1 d2 t, ev1 = d1 ++ w.pend1 ∧ ev2 = d2 ++ w.pend2 ∧ Interleaving d1 d2 t ∧
    w.buf = String.join (appendsOf t) ∧ w.chan = sendsOf t

/-- Memoizing a successful process result requires the underlying future to
have resolved: an invariant of every reachable completion-future state. -/
def OkImpliesDone (w : World) : Prop :=
  ∀ r, w.memo = some (Except.ok r) → w.futDone = true

/-- After a cancellation that preceded natural completion, the shared
future is aborted and its memoized output, if any, is the cancellation
outcome: an invariant preserved by every step. -/
def CancelSticky (w : World) : Prop :=
  w.aborted = true ∧
    (w.memo = none ∨ w.memo = some (Except.error RunnableTerminated.aborted))

/-! Helper lemmas about line splitting and the drain loop. -/

theorem splitChunks_eq_nil_iff (bytes : List Nat) :
    splitChunks bytes = [] ↔ bytes = [] := by
  constructor
  · intro h
    cases bytes with
    | nil => rfl
    | cons b rest =>
      simp only [splitChunks] at h
      split at h
      · cases h
      · split at h <;> cases h
  · intro h
    subst h
    rfl

theorem splitChunks_cons_newline (rest : List Nat) :
    splitChunks (10 :: rest) = [10] :: splitChunks rest := rfl

theorem splitChunks_cons_other_nil {b : Nat} {rest : List Nat}
    (hb : b ≠ 10) (h : splitChunks rest = []) :
    splitChunks (b :: rest) = [[b]] := by
  have hb' : (b == 10) = false := by simpa using hb
  rw [splitChunks, hb']
  simp [h]

theorem splitChunks_cons_other_cons {b : Nat} {rest c : List Nat} {cs : List (List Nat)}
    (hb : b ≠ 10) (h : splitChunks rest = c :: cs) :
    splitChunks (b :: rest) = (b :: c) :: cs := by
  have hb' : (b == 10) = false := by simpa using hb
  rw [splitChunks, hb']
  simp [h]

theorem splitChunks_flatten (bytes : List Nat) :
    (splitChunks bytes).flatten = bytes := by
  induction bytes with
  | nil => rfl
  | cons b rest ih =>
    by_cases hb : b = 10
    · subst hb
      simp [splitChunks, ih]
    · have hb' : (b == 10) = false := by simpa using hb
      simp only [splitChunks, hb', Bool.false_eq_true, if_false]
      cases hsc : splitChunks rest with
      | nil =>
        have : rest = [] := (splitChunks_eq_nil_iff rest).mp hsc
        subst this
        rfl
      | cons c cs =>
        rw [hsc] at ih
        simp only [List.flatten_cons] at ih ⊢
        simp [ih]

theorem splitChunks_last (bytes : List Nat) (hne : bytes ≠ [])
    (hnl : bytes.getLast? ≠ some 10) :
    ∃ cs c, splitChunks bytes = cs ++ [c] ∧ c ≠ [] ∧ ∀ x ∈ c, x ≠ 10 := by
  induction bytes with
  | nil => exact absurd rfl hne
  | cons b rest ih =>
    cases rest with
    | nil =>
      have hb : b ≠ 10 := by
        intro hb
        subst hb
        exact hnl rfl
      have hb' : (b == 10) = false := by simpa using hb
      refine ⟨[], [b], ?_, by simp, ?_⟩
      · simp [splitChunks, hb']
      · intro x hx
        simp only [List.mem_singleton] at hx
        subst hx
        exact hb
    | cons r rs =>
      have hlast : (b :: r :: rs).getLast? = (r :: rs).getLast? := List.getLast?_cons_cons
      rw [hlast] at hnl
      obtain ⟨cs', c', hsc, hcne, hc10⟩ := ih (by simp) hnl
      by_cases hb : b = 10
      · subst hb
        refine ⟨[10] :: cs', c', ?_, hcne, hc10⟩
        rw [splitChunks_cons_newline, hsc]
        rfl
      · cases cs' with
        | nil =>
          simp only [List.nil_append] at hsc
          refine ⟨[], b :: c', ?_, by simp, ?_⟩
          · rw [splitChunks_cons_other_cons hb hsc]
            rfl
          · intro x hx
            rcases List.mem_cons.mp hx with hx | hx
            · subst hx; exact hb
            · exact hc10 x hx
        | cons d ds =>
          refine ⟨(b :: d) :: ds, c', ?_, hcne, hc10⟩
          simp only [List.cons_append] at hsc
          rw [splitChunks_cons_other_cons hb hsc]
          rfl

theorem processChunks_caps_eof (decode : List Nat → String) (alive : Bool)
    (cs : List (List Nat)) :
    (processChunks decode alive .eof cs).1 = cs.map decode := by
  induction cs with
  | nil => rfl
  | cons c cs ih =>
    by_cases h : c.getLast? = some 10 <;> simp [processChunks, h, ih]

theorem processChunks_ok_eof (decode : List Nat → String) (alive : Bool)
    (cs : List (List Nat)) :
    (processChunks decode alive .eof cs).2.2 = true := by
  induction cs with
  | nil => rfl
  | cons c cs ih =>
    by_cases h : c.getLast? = some 10 <;> simp [processChunks, h, ih]

theorem processChunks_alive (decode : List Nat → String) (e : StreamEnd)
    (cs : List (List Nat)) (alive : Bool) :
    processChunks decode alive e cs =
      ((processChunks decode true e cs).1,
        if alive then (processChunks decode true e cs).1 else [],
        (processChunks decode true e cs).2.2) := by
  induction cs with
  | nil => cases e <;> cases alive <;> rfl
  | cons c cs ih =>
    by_cases h : c.getLast? = some 10
    · simp only [processChunks, h, if_pos, ih]
      cases alive <;> simp
    · cases e with
      | eof =>
        simp only [processChunks, h, if_neg, ih]
        cases alive <;> simp
      | err =>
        simp [processChunks, h]

/-! Helper lemmas about string concatenation and event traces. -/

theorem strFoldlAppend (l : List String) :
    ∀ a : String, l.foldl (· ++ ·) a = a ++ l.foldl (· ++ ·) "" := by
  induction l with
  | nil =>
    intro a
    simp
  | cons x xs ih =>
    intro a
    simp only [List.foldl_cons]
    rw [ih (a ++ x), ih ("" ++ x)]
    simp [String.append_assoc]

theorem joinCons (a : String) (l : List String) :
    String.join (a :: l) = a ++ String.join l := by
  simp only [String.join, List.foldl_cons]
  rw [strFoldlAppend]
  simp

theorem joinConcat (l : List String) (s : String) :
    String.join (l ++ [s]) = String.join l ++ s := by
  simp [String.join, List.foldl_append]

theorem appendsOf_append (t1 t2 : List DrainEv) :
    appendsOf (t1 ++ t2) = appendsOf t1 ++ appendsOf t2 := by
  simp [appendsOf, List.filterMap_append]

theorem sendsOf_append (t1 t2 : List DrainEv) :
    sendsOf (t1 ++ t2) = sendsOf t1 ++ sendsOf t2 := by
  simp [sendsOf, List.filterMap_append]

theorem appendsOf_pairs (ls : List String) :
    appendsOf (ls.flatMap fun l => [DrainEv.append l, DrainEv.send l]) = ls := by
  induction ls with
  | nil => rfl
  | cons x xs ih =>
    simp only [List.flatMap_cons, appendsOf, List.filterMap_append] at ih ⊢
    simp [ih, List.filterMap_cons]

theorem sendsOf_pairs (ls : List String) :
    sendsOf (ls.flatMap fun l => [DrainEv.append l, DrainEv.send l]) = ls := by
  induction ls with
  | nil => rfl
  | cons x xs ih =>
    simp only [List.flatMap_cons, sendsOf, List.filterMap_append] at ih ⊢
    simp [ih, List.filterMap_cons]

theorem drainEvents_appends (decode : List Nat → String) (e : StreamEnd) (bytes : List Nat) :
    appendsOf (drainEvents decode e bytes) = (handle_output decode true e bytes).1 :=
  appendsOf_pairs _

theorem drainEvents_sends (decode : List Nat → String) (e : StreamEnd) (bytes : List Nat) :
    sendsOf (drainEvents decode e bytes) = (handle_output decode true e bytes).1 :=
  sendsOf_pairs _

/-! Helper lemmas about interleavings. -/

theorem interleaving_filterMap {α β : Type} (f : α → Option β) {l₁ l₂ l : List α}
    (h : Interleaving l₁ l₂ l) :
    Interleaving (l₁.filterMap f) (l₂.filterMap f) (l.filterMap f) := by
  induction h with
  | nil => exact .nil
  | consLeft a h ih =>
    cases hfa : f a with
    | none => simpa [List.filterMap_cons, hfa] using ih
    | some b =>
      simp only [List.filterMap_cons, hfa]
      exact .consLeft b ih
  | consRight a h ih =>
    cases hfa : f a with
    | none => simpa [List.filterMap_cons, hfa] using ih
    | some b =>
      simp only [List.filterMap_cons, hfa]
      exact .consRight b ih

theorem interleaving_perm {α : Type} {l₁ l₂ l : List α} (h : Interleaving l₁ l₂ l) :
    l.Perm (l₁ ++ l₂) := by
  induction h with
  | nil => rfl
  | consLeft a h ih => simpa using ih.cons a
  | consRight a h ih =>
    refine List.Perm.trans (ih.cons a) ?_
    exact List.perm_middle.symm

theorem interleaving_concat_left {α : Type} (x : α) {l₁ l₂ l : List α}
    (h : Interleaving l₁ l₂ l) : Interleaving (l₁ ++ [x]) l₂ (l ++ [x]) := by
  induction h with
  | nil => exact .consLeft x .nil
  | consLeft a h ih => exact .consLeft a ih
  | consRight a h ih => exact .consRight a ih

theorem interleaving_concat_right {α : Type} (x : α) {l₁ l₂ l : List α}
    (h : Interleaving l₁ l₂ l) : Interleaving l₁ (l₂ ++ [x]) (l ++ [x]) := by
  induction h with
  | nil => exact .consRight x .nil
  | consLeft a h ih => exact .consLeft a ih
  | consRight a h ih => exact .consRight a ih

theorem interleaving_nil_left {α : Type} (l : List α) : Interleaving [] l l := by
  induction l with
  | nil => exact .nil
  | cons a l ih => exact .consRight a ih

theorem interleaving_appends {l₁ l₂ l : List DrainEv} (h : Interleaving l₁ l₂ l) :
    Interleaving (appendsOf l₁) (appendsOf l₂) (appendsOf l) :=
  interleaving_filterMap _ h

theorem interleaving_sends {l₁ l₂ l : List DrainEv} (h : Interleaving l₁ l₂ l) :
    Interleaving (sendsOf l₁) (sendsOf l₂) (sendsOf l) :=
  interleaving_filterMap _ h

/-! Helper lemmas about executing drain events. -/

theorem applyFold (t : List DrainEv) : ∀ w : OutState,
    t.foldl (fun w e => applyEv e w) w =
      ⟨w.pend1, w.pend2, w.buf ++ String.join (appendsOf t), w.chan ++ sendsOf t⟩ := by
  induction t with
  | nil =>
    intro w
    cases w
    simp [appendsOf, sendsOf, String.join]
  | cons e t ih =>
    intro w
    cases e with
    | append l =>
      simp only [List.foldl_cons]
      rw [ih]
      simp [applyEv, appendsOf, sendsOf, List.filterMap_cons, joinCons, String.append_assoc]
    | send l =>
      simp only [List.foldl_cons]
      rw [ih]
      simp [applyEv, appendsOf, sendsOf, List.filterMap_cons]

theorem execOut_spec (t : List DrainEv) :
    execOut t = ⟨[], [], String.join (appendsOf t), sendsOf t⟩ := by
  rw [execOut, applyFold]
  rfl

/-! Helper lemmas about the PendingOutput simulation invariant. -/

theorem matches_init (decode : List Nat → String) (e1 : StreamEnd) (b1 : List Nat)
    (e2 : StreamEnd) (b2 : List Nat) :
    Matches (drainEvents decode e1 b1) (drainEvents decode e2 b2)
      (outInit decode e1 b1 e2 b2) := by
  refine ⟨[], [], [], ?_, ?_, .nil, rfl, rfl⟩ <;> simp [outInit]

theorem matches_outStep {ev1 ev2 : List DrainEv} {w : OutState} (s : Sched)
    (h : Matches ev1 ev2 w) : Matches ev1 ev2 (outStep s w) := by
  obtain ⟨d1, d2, t, h1, h2, hI, hb, hc⟩ := h
  cases s with
  | s1 =>
    cases hp : w.pend1 with
    | nil =>
      simp only [outStep, hp]
      exact ⟨d1, d2, t, h1, h2, hI, hb, hc⟩
    | cons e rest =>
      simp only [outStep, hp]
      cases e with
      | append l =>
        refine ⟨d1 ++ [DrainEv.append l], d2, t ++ [DrainEv.append l], ?_, ?_, ?_, ?_, ?_⟩
        · rw [h1, hp]
          simp [applyEv]
        · simpa [applyEv] using h2
        · exact interleaving_concat_left _ hI
        · simp [applyEv, appendsOf_append, joinConcat, hb, appendsOf]
        · simpa [applyEv, sendsOf_append, sendsOf] using hc
      | send l =>
        refine ⟨d1 ++ [DrainEv.send l], d2, t ++ [DrainEv.send l], ?_, ?_, ?_, ?_, ?_⟩
        · rw [h1, hp]
          simp [applyEv]
        · simpa [applyEv] using h2
        · exact interleaving_concat_left _ hI
        · simpa [applyEv, appendsOf_append, appendsOf] using hb
        · simp [applyEv, sendsOf_append, hc, sendsOf]
  | s2 =>
    cases hp : w.pend2 with
    | nil =>
      simp only [outStep, hp]
      exact ⟨d1, d2, t, h1, h2, hI, hb, hc⟩
    | cons e rest =>
      simp only [outStep, hp]
      cases e with
      | append l =>
        refine ⟨d1, d2 ++ [DrainEv.append l], t ++ [DrainEv.append l], ?_, ?_, ?_, ?_, ?_⟩
        · simpa [applyEv] using h1
        · rw [h2, hp]
          simp [applyEv]
        · exact interleaving_concat_right _ hI
        · simp [applyEv, appendsOf_append, joinConcat, hb, appendsOf]
        · simpa [applyEv, sendsOf_append, sendsOf] using hc
      | send l =>
        refine ⟨d1, d2 ++ [DrainEv.send l], t ++ [DrainEv.send l], ?_, ?_, ?_, ?_, ?_⟩
        · simpa [applyEv] using h1
        · rw [h2, hp]
          simp [applyEv]
        · exact interleaving_concat_right _ hI
        · simpa [applyEv, appendsOf_append, appendsOf] using hb
        · simp [applyEv, sendsOf_append, hc, sendsOf]

theorem matches_outRun {ev1 ev2 : List DrainEv} (l : List Sched) :
    ∀ w : OutState, Matches ev1 ev2 w → Matches ev1 ev2 (outRun l w) := by
  induction l with
  | nil => exact fun w h => h
  | cons s l ih =>
    intro w h
    exact ih (outStep s w) (matches_outStep s h)

/-! Helper lemmas about the shared completion future. -/

theorem stepPoll_memo_some {w : World}
    {v : Except RunnableTerminated (Except ProcError ExitStatus)}
    (h : w.memo = some v) : stepPoll w = w := by
  simp [stepPoll, h]

theorem stepPoll_futVal (w : World) : (stepPoll w).futVal = w.futVal := by
  rcases hm : w.memo with _ | v
  · simp only [stepPoll, hm]
    split
    · rfl
    · split <;> rfl
  · rw [stepPoll_memo_some hm]

theorem stepPoll_futDone (w : World) : (stepPoll w).futDone = w.futDone := by
  rcases hm : w.memo with _ | v
  · simp only [stepPoll, hm]
    split
    · rfl
    · split <;> rfl
  · rw [stepPoll_memo_some hm]

theorem stepPoll_aborted (w : World) : (stepPoll w).aborted = w.aborted := by
  rcases hm : w.memo with _ | v
  · simp only [stepPoll, hm]
    split
    · rfl
    · split <;> rfl
  · rw [stepPoll_memo_some hm]

theorem step_futVal {w w' : World} (h : Step w w') : w'.futVal = w.futVal := by
  cases h with
  | abort => rfl
  | futResolve h => rfl
  | poll => exact stepPoll_futVal w

theorem step_memo_some {w w' : World}
    {v : Except RunnableTerminated (Except ProcError ExitStatus)}
    (h : Step w w') (hm : w.memo = some v) : w'.memo = some v := by
  cases h with
  | abort => exact hm
  | futResolve h => exact hm
  | poll => rw [stepPoll_memo_some hm]; exact hm

theorem step_aborted_mono {w w' : World} (h : Step w w') (ha : w.aborted = true) :
    w'.aborted = true := by
  cases h with
  | abort => rfl
  | futResolve h => exact ha
  | poll => rw [stepPoll_aborted]; exact ha

theorem step_futDone_mono {w w' : World} (h : Step w w') (hd : w.futDone = true) :
    w'.futDone = true := by
  cases h with
  | abort => exact hd
  | futResolve h => rfl
  | poll => rw [stepPoll_futDone]; exact hd

theorem reach_memo_some {w w' : World}
    {v : Except RunnableTerminated (Except ProcError ExitStatus)}
    (h : Reachable w w') (hm : w.memo = some v) : w'.memo = some v := by
  induction h with
  | refl => exact hm
  | tail _ hstep ih => exact step_memo_some hstep ih

theorem reach_futVal {w w' : World} (h : Reachable w w') : w'.futVal = w.futVal := by
  induction h with
  | refl => rfl
  | tail _ hstep ih => rw [step_futVal hstep, ih]

theorem reach_futDone_mono {w w' : World} (h : Reachable w w') (hd : w.futDone = true) :
    w'.futDone = true := by
  induction h with
  | refl => exact hd
  | tail _ hstep ih => exact step_futDone_mono hstep ih

theorem step_okImpliesDone {w w' : World} (h : Step w w') (hg : OkImpliesDone w) :
    OkImpliesDone w' := by
  cases h with
  | abort => exact hg
  | futResolve h => exact fun r _ => rfl
  | poll =>
    intro r hr
    rcases hm : w.memo with _ | v
    · rw [stepPoll_futDone]
      by_cases ha : w.aborted
      · simp [stepPoll, hm, ha] at hr
      · by_cases hd : w.futDone
        · exact hd
        · simp [stepPoll, hm, ha, hd] at hr
    · rw [stepPoll_memo_some hm] at hr
      rw [stepPoll_memo_some hm]
      exact hg r hr

theorem init_okImpliesDone (f : Except ProcError ExitStatus) :
    OkImpliesDone (World.init f) := by
  intro r hr
  simp [World.init] at hr

theorem reach_okImpliesDone {w w' : World} (h : Reachable w w') (hg : OkImpliesDone w) :
    OkImpliesDone w' := by
  induction h with
  | refl => exact hg
  | tail _ hstep ih => exact step_okImpliesDone hstep ih

theorem step_cancelSticky {w w' : World} (h : Step w w') (hc : CancelSticky w) :
    CancelSticky w' := by
  obtain ⟨ha, hm⟩ := hc
  cases h with
  | abort => exact ⟨rfl, hm⟩
  | futResolve h => exact ⟨ha, hm⟩
  | poll =>
    refine ⟨by rw [stepPoll_aborted]; exact ha, ?_⟩
    rcases hm with hm | hm
    · right
      simp [stepPoll, hm, ha]
    · right
      rw [stepPoll_memo_some hm]
      exact hm

theorem reach_cancelSticky {w w' : World} (h : Reachable w w') (hc : CancelSticky w) :
    CancelSticky w' := by
  induction h with
  | refl => exact hc
  | tail _ hstep ih => exact step_cancelSticky hstep ih

theorem cancelSticky_poll {w : World} (hc : CancelSticky w) :
    (stepPoll w).memo = some (Except.error RunnableTerminated.aborted) := by
  obtain ⟨ha, hm | hm⟩ := hc
  · simp [stepPoll, hm, ha]
  · rw [stepPoll_memo_some hm]
    exact hm

theorem cancelSticky_of {f : Except ProcError ExitStatus} {w : World}
    (hre : Reachable (World.init f) w) (ha : w.aborted = true)
    (hd : w.futDone = false) : CancelSticky w := by
  refine ⟨ha, ?_⟩
  have hg : OkImpliesDone w := reach_okImpliesDone hre (init_okImpliesDone f)
  rcases hm : w.memo with _ | v
  · exact Or.inl rfl
  · right
    cases v with
    | error t =>
      cases t
      rfl
    | ok r =>
      exact absurd (hg r hm) (by rw [hd]; exact Bool.false_ne_true)

/-! Helper lemmas about combined system steps. -/

theorem sysStep_frame (p q : World × OutState) (h : SysStep p q) :
    q.2 = p.2 ∨ q.1 = p.1 := by
  cases h with
  | handleStep o hs => exact Or.inl rfl
  | drainStep w s => exact Or.inr rfl

theorem sysReach_out (l : List Sched) (w : World) (o : OutState) :
    SysReach (w, o) (w, outRun l o) := by
  induction l generalizing o with
  | nil => exact Relation.ReflTransGen.refl
  | cons s l ih =>
    refine Relation.ReflTransGen.trans
      (Relation.ReflTransGen.single (SysStep.drainStep w s)) ?_
    exact ih (outStep s o)

theorem sysReach_handle {w w' : World} (o : OutState) (h : Reachable w w') :
    SysReach (w, o) (w', o) := by
  induction h with
  | refl => exact Relation.ReflTransGen.refl
  | tail _ hstep ih => exact ih.tail (SysStep.handleStep _ hstep)

/-! Claim theorems. -/

/-- Claim C1, counterexample: the claim states that a process-level
launch/run failure (the wrapped process future resolving with an error) is
surfaced as a failed resolution of the await. On the code it is not: with
the wrapped future resolved to an error and no cancellation, polling the
handle resolves the await successfully, as Except.ok of an ExecutionResult
whose status carries the error, and not as the failed resolution
Except.error, which is reserved for cancellation. -/
theorem c1_counterexample :
    (Handle.poll ⟨none⟩ ⟨Except.error "spawn failure", true, false, none⟩).1 =
      some (Except.ok ⟨Except.error "spawn failure", none⟩) ∧
    (Handle.poll ⟨none⟩ ⟨Except.error "spawn failure", true, false, none⟩).1 ≠
      some (Except.error RunnableTerminated.aborted) :=
  ⟨rfl, by decide⟩

/-- Claim C1 (amended): awaiting an Execution Handle resolves to exactly
one of three mutually exclusive outcomes: a successful resolution whose
status is a process exit status, a successful resolution whose status is a
launch/run error, or the cancellation outcome, which is the only failed
resolution of the await. A process-level launch/run failure (the wrapped
future resolved with an error, not cancelled, not yet memoized) is
surfaced inside a successful resolution as an error status, distinct both
from cancellation and from any successful resolution carrying an exit
status. -/
theorem c1_amended (h : Handle) (w : World)
    (v : Except RunnableTerminated (Except ProcError ExitStatus))
    (hv : (stepPoll w).memo = some v) :
    (Handle.poll h w).1 = some (v.map fun st => ExecutionResult.mk st h.output) ∧
    ((∃ st, v = Except.ok (Except.ok st)) ∨ (∃ err, v = Except.ok (Except.error err)) ∨
      v = Except.error RunnableTerminated.aborted) ∧
    ¬ ((∃ st, v = Except.ok (Except.ok st)) ∧ ∃ err, v = Except.ok (Except.error err)) ∧
    ¬ ((∃ st, v = Except.ok (Except.ok st)) ∧ v = Except.error RunnableTerminated.aborted) ∧
    ¬ ((∃ err, v = Except.ok (Except.error err)) ∧ v = Except.error RunnableTerminated.aborted) ∧
    (∀ err : ProcError, w.memo = none → w.aborted = false → w.futDone = true →
      w.futVal = Except.error err → v = Except.ok (Except.error err)) := by
  refine ⟨by simp [Handle.poll, hv], ?_, ?_, ?_, ?_, ?_⟩
  · cases v with
    | error t => cases t; exact Or.inr (Or.inr rfl)
    | ok r =>
      cases r with
      | ok st => exact Or.inl ⟨st, rfl⟩
      | error e => exact Or.inr (Or.inl ⟨e, rfl⟩)
  · rintro ⟨⟨st, h1⟩, ⟨e, h2⟩⟩
    rw [h1] at h2
    simp at h2
  · rintro ⟨⟨st, h1⟩, h2⟩
    rw [h1] at h2
    simp at h2
  · rintro ⟨⟨e, h1⟩, h2⟩
    rw [h1] at h2
    simp at h2
  · intro err hm ha hd hval
    simp [stepPoll, hm, ha, hd, hval] at hv
    exact hv.symm

/-- Witness for the amended C1 at a concrete launch failure. -/
theorem c1_amended_w :
    (stepPoll ⟨Except.error "boom", true, false, none⟩).memo =
      some (Except.ok (Except.error "boom")) ∧
    (Handle.poll ⟨none⟩ ⟨Except.error "boom", true, false, none⟩).1 =
      some (Except.ok ⟨Except.error "boom", none⟩) := by
  refine ⟨rfl, ?_⟩
  exact (c1_amended ⟨none⟩ ⟨Except.error "boom", true, false, none⟩
    (Except.ok (Except.error "boom")) rfl).1

/-- Claim C2: on every input stream that reaches end of input without a
terminating newline, handle_output still appends the decoded trailing
unterminated segment to the shared accumulation buffer, still forwards it
on the line channel, and then returns Ok at end of stream; the tail is
never dropped. -/
theorem c2_flushes_tail (decode : List Nat → String) (alive : Bool) (bytes : List Nat)
    (hne : bytes ≠ []) (hnl : bytes.getLast? ≠ some 10) :
    ∃ pre tail, bytes = pre ++ tail ∧ tail ≠ [] ∧ (∀ x ∈ tail, x ≠ 10) ∧
      (handle_output decode alive .eof bytes).1.getLast? = some (decode tail) ∧
      (alive = true →
        (handle_output decode alive .eof bytes).2.1.getLast? = some (decode tail)) ∧
      (handle_output decode alive .eof bytes).2.2 = true := by
  obtain ⟨cs, c, hsc, hcne, hc10⟩ := splitChunks_last bytes hne hnl
  refine ⟨cs.flatten, c, ?_, hcne, hc10, ?_, ?_, ?_⟩
  · conv_lhs => rw [← splitChunks_flatten bytes, hsc]
    simp
  · rw [handle_output, processChunks_caps_eof, hsc]
    simp
  · intro ha
    subst ha
    rw [handle_output, processChunks_alive]
    simp only [if_true]
    rw [processChunks_caps_eof, hsc]
    simp
  · rw [handle_output, processChunks_ok_eof]

/-- Witness for C2 on the stream "part" with no trailing newline. -/
theorem c2_w :
    ∃ pre tail, ([112, 97, 114, 116] : List Nat) = pre ++ tail ∧ tail ≠ [] ∧
      (∀ x ∈ tail, x ≠ 10) ∧
      (handle_output decodeAscii true .eof [112, 97, 114, 116]).1.getLast? =
        some (decodeAscii tail) ∧
      (true = true →
        (handle_output decodeAscii true .eof [112, 97, 114, 116]).2.1.getLast? =
          some (decodeAscii tail)) ∧
      (handle_output decodeAscii true .eof [112, 97, 114, 116]).2.2 = true :=
  c2_flushes_tail decodeAscii true [112, 97, 114, 116] (by decide) (by decide)

/-- Claim C3: once both drain tasks have finished, the accumulation buffer
equals the concatenation of the buffer appends of the (arbitrary)
interleaved trace, the line channel carries the send order of that trace,
and both orders are interleavings of the per-stream line sequences read by
the stdout and stderr drains: no line is lost or duplicated (both orders
are permutations of the two line sequences combined, and of each other),
lines of one stream keep their relative order, while the interleaving
between the two streams is unconstrained. -/
theorem c3_buffer_channel (decode : List Nat → String) (e1 : StreamEnd) (b1 : List Nat)
    (e2 : StreamEnd) (b2 : List Nat) (t : List DrainEv)
    (ht : Interleaving (drainEvents decode e1 b1) (drainEvents decode e2 b2) t) :
    (execOut t).buf = String.join (appendsOf t) ∧
    (execOut t).chan = sendsOf t ∧
    Interleaving (handle_output decode true e1 b1).1 (handle_output decode true e2 b2).1
      (appendsOf t) ∧
    Interleaving (handle_output decode true e1 b1).1 (handle_output decode true e2 b2).1
      (sendsOf t) ∧
    (appendsOf t).Perm
      ((handle_output decode true e1 b1).1 ++ (handle_output decode true e2 b2).1) ∧
    (appendsOf t).Perm (sendsOf t) := by
  have hA := interleaving_appends ht
  have hS := interleaving_sends ht
  rw [drainEvents_appends, drainEvents_appends] at hA
  rw [drainEvents_sends, drainEvents_sends] at hS
  refine ⟨by simp [execOut_spec], by simp [execOut_spec], hA, hS, interleaving_perm hA, ?_⟩
  exact (interleaving_perm hA).trans (interleaving_perm hS).symm

/-- Witness for C3 on streams "a\n" and "b\n" with the stdout drain
scheduled first. -/
theorem c3_w :
    Interleaving (drainEvents decodeAscii .eof [97, 10])
      (drainEvents decodeAscii .eof [98, 10])
      [DrainEv.append "a\n", DrainEv.send "a\n", DrainEv.append "b\n", DrainEv.send "b\n"] ∧
    (execOut [DrainEv.append "a\n", DrainEv.send "a\n",
        DrainEv.append "b\n", DrainEv.send "b\n"]).buf =
      String.join (appendsOf [DrainEv.append "a\n", DrainEv.send "a\n",
        DrainEv.append "b\n", DrainEv.send "b\n"]) ∧
    (appendsOf [DrainEv.append "a\n", DrainEv.send "a\n",
        DrainEv.append "b\n", DrainEv.send "b\n"]).Perm
      (sendsOf [DrainEv.append "a\n", DrainEv.send "a\n",
        DrainEv.append "b\n", DrainEv.send "b\n"]) := by
  have he1 : drainEvents decodeAscii .eof [97, 10] =
      [DrainEv.append "a\n", DrainEv.send "a\n"] := by decide
  have he2 : drainEvents decodeAscii .eof [98, 10] =
      [DrainEv.append "b\n", DrainEv.send "b\n"] := by decide
  have ht : Interleaving (drainEvents decodeAscii .eof [97, 10])
      (drainEvents decodeAscii .eof [98, 10])
      [DrainEv.append "a\n", DrainEv.send "a\n",
        DrainEv.append "b\n", DrainEv.send "b\n"] := by
    rw [he1, he2]
    exact .consLeft _ (.consLeft _ (interleaving_nil_left _))
  have hc := c3_buffer_channel decodeAscii .eof [97, 10] .eof [98, 10] _ ht
  exact ⟨ht, hc.1, hc.2.2.2.2.2⟩

/-- Claim C4: result() is a non-blocking peek at the shared completion
future: it returns none exactly as long as the future has not resolved
(nor been resolved as cancelled), afterwards it returns some of the
terminal value, and the observed terminal value is stable under every
further step of the system: repeated calls never consume or change it. -/
theorem c4_result_peek (h : Handle) (w w' : World) :
    (w.memo = none → Handle.result h w = none) ∧
    (Handle.result h w = none → w.memo = none) ∧
    (∀ v, w.memo = some v →
      Handle.result h w = some (v.map fun st => ExecutionResult.mk st h.output)) ∧
    (∀ r, Handle.result h w = some r → Reachable w w' → Handle.result h w' = some r) := by
  refine ⟨?_, ?_, ?_, ?_⟩
  · intro hm
    simp [Handle.result, hm]
  · intro hr
    rcases hm : w.memo with _ | v
    · rfl
    · simp [Handle.result, hm] at hr
  · intro v hm
    simp [Handle.result, hm]
  · intro r hr hre
    rcases hm : w.memo with _ | v
    · simp [Handle.result, hm] at hr
    · have hm' := reach_memo_some hre hm
      simp [Handle.result, hm] at hr
      simp [Handle.result, hm', hr]

/-- Witness for C4: before any resolution result() is none; on a resolved
world it returns the stable terminal value. -/
theorem c4_w :
    Handle.result ⟨none⟩ (World.init (Except.ok ⟨0⟩)) = none ∧
    Handle.result ⟨none⟩ ⟨Except.ok ⟨0⟩, true, false, some (Except.ok (Except.ok ⟨0⟩))⟩ =
      some (Except.ok ⟨Except.ok ⟨0⟩, none⟩) := by
  constructor
  · exact (c4_result_peek ⟨none⟩ (World.init (Except.ok ⟨0⟩)) (World.init (Except.ok ⟨0⟩))).1 rfl
  · exact (c4_result_peek ⟨none⟩
      ⟨Except.ok ⟨0⟩, true, false, some (Except.ok (Except.ok ⟨0⟩))⟩
      ⟨Except.ok ⟨0⟩, true, false, some (Except.ok (Except.ok ⟨0⟩))⟩).2.2.1
      (Except.ok (Except.ok ⟨0⟩)) rfl

/-- Claim C5: if the cancel capability is invoked before the wrapped
process future naturally completes, then from that point on every poll of
the handle (so every await, past-pending or newly started) resolves to the
cancellation outcome, and result() returns either none or the cancellation
outcome, never a successful resolution carrying the process's real exit
status. -/
theorem c5_cancellation (h : Handle) (f : Except ProcError ExitStatus) (w w' : World)
    (hre : Reachable (World.init f) w) (hab : w.aborted = true)
    (hnat : w.futDone = false) (hre2 : Reachable w w') :
    (Handle.poll h w').1 = some (Except.error RunnableTerminated.aborted) ∧
    (Handle.result h w' = none ∨
      Handle.result h w' = some (Except.error RunnableTerminated.aborted)) ∧
    ∀ r : ExecutionResult, Handle.result h w' ≠ some (Except.ok r) := by
  have hcs : CancelSticky w' := reach_cancelSticky hre2 (cancelSticky_of hre hab hnat)
  have hpoll := cancelSticky_poll hcs
  refine ⟨?_, ?_, ?_⟩
  · simp [Handle.poll, hpoll, Except.map]
  · rcases hcs.2 with hm | hm
    · exact Or.inl (by simp [Handle.result, hm])
    · exact Or.inr (by simp [Handle.result, hm, Except.map])
  · intro r hr
    rcases hcs.2 with hm | hm
    · simp [Handle.result, hm] at hr
    · simp [Handle.result, hm, Except.map] at hr

/-- Witness for C5: cancel a freshly spawned handle before its process
future resolves; the next poll already yields the cancellation outcome. -/
theorem c5_w :
    (Handle.poll ⟨none⟩ ⟨Except.ok ⟨0⟩, false, true, none⟩).1 =
      some (Except.error RunnableTerminated.aborted) ∧
    ∀ r : ExecutionResult,
      Handle.result ⟨none⟩ ⟨Except.ok ⟨0⟩, false, true, none⟩ ≠ some (Except.ok r) := by
  have hc := c5_cancellation ⟨none⟩ (Except.ok ⟨0⟩)
    ⟨Except.ok ⟨0⟩, false, true, none⟩ ⟨Except.ok ⟨0⟩, false, true, none⟩
    (Relation.ReflTransGen.single (Step.abort (World.init (Except.ok ⟨0⟩))))
    rfl rfl Relation.ReflTransGen.refl
  exact ⟨hc.1, hc.2.2⟩

/-- Claim C6: the terminal outcome of the shared completion future is
memoized: once it is set, polling any number of further times is a no-op on
the state (the wrapped future is never re-driven, so it is driven to
completion at most once and its stored result never changes), and every
clone of the handle, polling now or after any further steps, observes the
one identical terminal outcome. -/
theorem c6_clones_memoized (h : Handle) (w w' : World)
    (v : Except RunnableTerminated (Except ProcError ExitStatus)) (n : Nat)
    (hm : w.memo = some v) (hre : Reachable w w') :
    stepPoll^[n] w = w ∧
    (Handle.poll h w).1 = some (v.map fun st => ExecutionResult.mk st h.output) ∧
    (Handle.poll h w').1 = some (v.map fun st => ExecutionResult.mk st h.output) ∧
    Handle.result h w' = some (v.map fun st => ExecutionResult.mk st h.output) ∧
    w'.futVal = w.futVal ∧
    (w.futDone = true → w'.futDone = true) := by
  have hm' := reach_memo_some hre hm
  refine ⟨Function.iterate_fixed (stepPoll_memo_some hm) n, ?_, ?_, ?_,
    reach_futVal hre, reach_futDone_mono hre⟩
  · simp [Handle.poll, stepPoll_memo_some hm, hm]
  · simp [Handle.poll, stepPoll_memo_some hm', hm']
  · simp [Handle.result, hm']

/-- Witness for C6 on a resolved world, polled three extra times. -/
theorem c6_w :
    stepPoll^[3] ⟨Except.ok ⟨0⟩, true, false, some (Except.ok (Except.ok ⟨0⟩))⟩ =
      ⟨Except.ok ⟨0⟩, true, false, some (Except.ok (Except.ok ⟨0⟩))⟩ ∧
    (Handle.poll ⟨none⟩ ⟨Except.ok ⟨0⟩, true, false, some (Except.ok (Except.ok ⟨0⟩))⟩).1 =
      some (Except.ok ⟨Except.ok ⟨0⟩, none⟩) := by
  have hc := c6_clones_memoized ⟨none⟩
    ⟨Except.ok ⟨0⟩, true, false, some (Except.ok (Except.ok ⟨0⟩))⟩
    ⟨Except.ok ⟨0⟩, true, false, some (Except.ok (Except.ok ⟨0⟩))⟩
    (Except.ok (Except.ok ⟨0⟩)) 3 rfl Relation.ReflTransGen.refl
  exact ⟨hc.1, hc.2.1⟩

/-- Claim C7: full_output resolves only once both drain tasks are finished
(both pending event lists empty), and then returns a snapshot of the
accumulated text, leaving the state untouched, so that repeated calls from
any number of callers resolve to the same snapshot without consuming the
underlying drains; when both drains are finished the snapshot is the
concatenated text of a full interleaving of the two drains' event traces. -/
theorem c7_full_output (decode : List Nat → String) (e1 : StreamEnd) (b1 : List Nat)
    (e2 : StreamEnd) (b2 : List Nat) (l : List Sched) :
    (∀ s w', full_output (outRun l (outInit decode e1 b1 e2 b2)) = some (s, w') →
      w' = outRun l (outInit decode e1 b1 e2 b2) ∧
      w'.pend1 = [] ∧ w'.pend2 = [] ∧ s = w'.buf ∧
      full_output w' = some (s, w')) ∧
    ((outRun l (outInit decode e1 b1 e2 b2)).pend1 = [] →
     (outRun l (outInit decode e1 b1 e2 b2)).pend2 = [] →
      ∃ t, Interleaving (drainEvents decode e1 b1) (drainEvents decode e2 b2) t ∧
        full_output (outRun l (outInit decode e1 b1 e2 b2)) =
          some (String.join (appendsOf t), outRun l (outInit decode e1 b1 e2 b2))) := by
  constructor
  · intro s w' hfo
    unfold full_output at hfo
    split at hfo
    · rename_i hcond
      simp only [Option.some.injEq, Prod.mk.injEq] at hfo
      obtain ⟨hs, hw⟩ := hfo
      subst hw
      refine ⟨rfl, hcond.1, hcond.2, hs.symm, ?_⟩
      rw [full_output, if_pos hcond, hs]
    · cases hfo
  · intro h1 h2
    obtain ⟨d1, d2, t, he1, he2, hI, hb, hc⟩ :=
      matches_outRun l _ (matches_init decode e1 b1 e2 b2)
    rw [h1, List.append_nil] at he1
    rw [h2, List.append_nil] at he2
    refine ⟨t, ?_, ?_⟩
    · rw [he1, he2]
      exact hI
    · rw [full_output, if_pos ⟨h1, h2⟩, hb]

/-- Witness for C7: a schedule that drains the stream "a\n" and an empty
stderr stream completely. -/
theorem c7_w :
    ∃ t, Interleaving (drainEvents decodeAscii .eof [97, 10])
        (drainEvents decodeAscii .eof []) t ∧
      full_output (outRun [Sched.s1, Sched.s1]
          (outInit decodeAscii .eof [97, 10] .eof [])) =
        some (String.join (appendsOf t),
          outRun [Sched.s1, Sched.s1] (outInit decodeAscii .eof [97, 10] .eof [])) :=
  (c7_full_output decodeAscii .eof [97, 10] .eof [] [Sched.s1, Sched.s1]).2
    (by decide) (by decide)

/-- Claim C8: when the receiving end of the line channel has been dropped,
the drain behaves identically except that no line is delivered: the
captured buffer appends are unchanged, the forwarding failure is silently
swallowed, the loop keeps running to the end of the stream, its success or
failure is exactly that of a drain with a live receiver, and in particular
it still returns Ok at a clean end of input. -/
theorem c8_dropped_receiver (decode : List Nat → String) (e : StreamEnd)
    (bytes : List Nat) :
    (handle_output decode false e bytes).1 = (handle_output decode true e bytes).1 ∧
    (handle_output decode false e bytes).2.1 = [] ∧
    (handle_output decode false e bytes).2.2 = (handle_output decode true e bytes).2.2 ∧
    (e = StreamEnd.eof → (handle_output decode false e bytes).2.2 = true) := by
  have hc := processChunks_alive decode e (splitChunks bytes) false
  refine ⟨?_, ?_, ?_, ?_⟩
  · rw [handle_output, handle_output, hc]
  · rw [handle_output, hc]
    simp
  · rw [handle_output, handle_output, hc]
  · intro he
    subst he
    rw [handle_output, hc]
    simp [processChunks_ok_eof]

/-- Witness for C8 on the stream "a\n" with a dropped receiver. -/
theorem c8_w :
    (handle_output decodeAscii false .eof [97, 10]).1 =
      (handle_output decodeAscii true .eof [97, 10]).1 ∧
    (handle_output decodeAscii false .eof [97, 10]).2.1 = [] ∧
    (handle_output decodeAscii false .eof [97, 10]).2.2 = true := by
  have hc := c8_dropped_receiver decodeAscii .eof [97, 10]
  exact ⟨hc.1, hc.2.1, hc.2.2.2 rfl⟩

/-- Claim C9: cancellation and output capture are independent: every
combined system step changes either only the completion-future state or
only the drain state (so firing the cancel capability leaves the drains
untouched), and after cancelling a freshly spawned handle before its
process future resolves, any drain schedule remains executable, the
resolved outcome is the cancellation outcome for every clone, and a
schedule that finishes both drains still leaves full_output resolving to
the fully populated accumulation buffer. -/
theorem c9_cancel_frame (f : Except ProcError ExitStatus) (decode : List Nat → String)
    (e1 : StreamEnd) (b1 : List Nat) (e2 : StreamEnd) (b2 : List Nat) (l : List Sched) :
    (∀ p q : World × OutState, SysStep p q → q.2 = p.2 ∨ q.1 = p.1) ∧
    SysReach (World.init f, outInit decode e1 b1 e2 b2)
      (stepPoll (abortRunnable (World.init f)), outRun l (outInit decode e1 b1 e2 b2)) ∧
    (stepPoll (abortRunnable (World.init f))).memo =
      some (Except.error RunnableTerminated.aborted) ∧
    (∀ h : Handle, Handle.result h (stepPoll (abortRunnable (World.init f))) =
      some (Except.error RunnableTerminated.aborted)) ∧
    ((outRun l (outInit decode e1 b1 e2 b2)).pend1 = [] →
     (outRun l (outInit decode e1 b1 e2 b2)).pend2 = [] →
     full_output (outRun l (outInit decode e1 b1 e2 b2)) =
       some ((outRun l (outInit decode e1 b1 e2 b2)).buf,
         outRun l (outInit decode e1 b1 e2 b2))) := by
  refine ⟨sysStep_frame, ?_, rfl, fun h0 => rfl, ?_⟩
  · have hreach : Reachable (World.init f) (stepPoll (abortRunnable (World.init f))) :=
      (Relation.ReflTransGen.single (Step.abort (World.init f))).tail
        (Step.poll (abortRunnable (World.init f)))
    exact Relation.ReflTransGen.trans (sysReach_handle _ hreach) (sysReach_out l _ _)
  · intro h1 h2
    rw [full_output, if_pos ⟨h1, h2⟩]

/-- Witness for C9: cancel, then run both events of the stdout drain of
stream "a\n"; full_output still resolves to the populated buffer. -/
theorem c9_w :
    (stepPoll (abortRunnable (World.init (Except.ok ⟨0⟩)))).memo =
      some (Except.error RunnableTerminated.aborted) ∧
    full_output (outRun [Sched.s1, Sched.s1]
        (outInit decodeAscii .eof [97, 10] .eof [])) =
      some ((outRun [Sched.s1, Sched.s1]
          (outInit decodeAscii .eof [97, 10] .eof [])).buf,
        outRun [Sched.s1, Sched.s1] (outInit decodeAscii .eof [97, 10] .eof [])) := by
  have hc := c9_cancel_frame (Except.ok ⟨0⟩) decodeAscii .eof [97, 10] .eof []
    [Sched.s1, Sched.s1]
  exact ⟨hc.2.2.1, hc.2.2.2.2 (by decide) (by decide)⟩

/-- Claim C10: Handle::new declares the fallible return type Result but
never returns an error: for every wrapped process future and every
optional output capture, construction succeeds with Ok of a handle
carrying that output and a fresh completion-future state. -/
theorem c10_new_infallible (futVal : Except ProcError ExitStatus)
    (output : Option PendingOutput) :
    ∃ p : Handle × World, Handle.new futVal output = Except.ok p ∧
      p.1.output = output ∧ p.2 = World.init futVal :=
  ⟨(⟨output⟩, World.init futVal), rfl, rfl, rfl⟩
